import Mathlib

/-
  Verification of the M-ary Huffman codec implemented in this repository
  (src/src/App.tsx and src/unnamed/part_000).

  Strings are modelled as lists of characters (`Str`), JavaScript `Map`s as
  association lists with insertion-order update/append semantics, and the
  priority queue's `Array.prototype.sort` (a stable sort, per ES2019) as a
  stable insertion sort.  `String.prototype.localeCompare` is modelled as
  code-point lexicographic comparison, which agrees with the default locale
  on the ASCII inputs used in concrete examples.  JavaScript numbers are
  modelled as `Nat` where the program only ever produces non-negative
  integers (frequencies, counts) and as `Rat` for the compression ratio.
-/

abbrev Str := List Char

/-- The in-band tag `"internal"` used by the source for merged nodes. -/
def internalTag : Str := ['i', 'n', 't', 'e', 'r', 'n', 'a', 'l']

/-- The name prefix `"dummy"` that `generateCodes` filters on. -/
def dummyPrefix : Str := ['d', 'u', 'm', 'm', 'y']

/-- Model of JavaScript `Number.prototype.toString()` on the non-negative
integers the program produces (child indexes and dummy counters). -/
def natToStr (n : Nat) : Str := Nat.toDigits 10 n

/-- `class HuffmanTreeNode { data; freq; children }` from the source. -/
inductive HuffmanTreeNode : Type where
  | node (data : Str) (freq : Nat) (children : List HuffmanTreeNode)

def HuffmanTreeNode.data : HuffmanTreeNode → Str
  | .node d _ _ => d

def HuffmanTreeNode.freq : HuffmanTreeNode → Nat
  | .node _ f _ => f

def HuffmanTreeNode.children : HuffmanTreeNode → List HuffmanTreeNode
  | .node _ _ cs => cs

/-- Code-point lexicographic order on strings: `strLe a b` is true iff
`a.localeCompare(b) <= 0` in the model. -/
def strLe : Str → Str → Bool
  | [], _ => true
  | _ :: _, [] => false
  | a :: as, b :: bs => if a = b then strLe as bs else decide (a < b)

/-- The sort comparator from `PriorityQueue.sort`: `nodeLe a b` is true iff
the comparator applied to `(a, b)` returns a value `<= 0` (primary key the
frequency, secondary key `localeCompare` on `data`). -/
def nodeLe (a b : HuffmanTreeNode) : Bool :=
  if a.freq = b.freq then strLe a.data b.data else decide (a.freq < b.freq)

/-- One step of the stable insertion sort modelling `Array.prototype.sort`:
`n` is placed after every already-placed element that does not compare
strictly greater than it. -/
def insertNode (n : HuffmanTreeNode) : List HuffmanTreeNode → List HuffmanTreeNode
  | [] => [n]
  | b :: bs => if nodeLe b n then b :: insertNode n bs else n :: b :: bs

/-- `PriorityQueue.sort`: a stable sort by `nodeLe`. -/
def pqSort (l : List HuffmanTreeNode) : List HuffmanTreeNode :=
  l.foldl (fun acc x => insertNode x acc) []

/-- `PriorityQueue.enqueue`: push then re-sort. -/
def enqueue (pq : List HuffmanTreeNode) (n : HuffmanTreeNode) : List HuffmanTreeNode :=
  pqSort (pq ++ [n])

/-- `calculateRequiredDummies` from the source.  The callers only invoke it
with `symbolCount >= 2` and `m >= 2`, where `Nat` subtraction and `%` agree
with the JavaScript arithmetic. -/
def calculateRequiredDummies (symbolCount m : Nat) : Nat :=
  let remainder := (symbolCount - 1) % (m - 1)
  if remainder = 0 then 0 else m - 1 - remainder

/-- The `totalFreq` accumulation in the merge loop. -/
def sumFreq (l : List HuffmanTreeNode) : Nat :=
  l.foldl (fun a n => a + n.freq) 0

theorem insertNode_length (n : HuffmanTreeNode) (l : List HuffmanTreeNode) :
    (insertNode n l).length = l.length + 1 := by
  induction l with
  | nil => rfl
  | cons b bs ih =>
    unfold insertNode
    split
    · simp [ih]
    · simp

theorem pqSort_foldl_length (l acc : List HuffmanTreeNode) :
    (l.foldl (fun acc x => insertNode x acc) acc).length = acc.length + l.length := by
  induction l generalizing acc with
  | nil => rfl
  | cons b bs ih => simp [List.foldl_cons, ih, insertNode_length]; omega

theorem pqSort_length (l : List HuffmanTreeNode) : (pqSort l).length = l.length := by
  unfold pqSort
  simpa using pqSort_foldl_length l []

theorem enqueue_length (pq : List HuffmanTreeNode) (n : HuffmanTreeNode) :
    (enqueue pq n).length = pq.length + 1 := by
  unfold enqueue
  simp [pqSort_length]

/-- The body of the `while (pq.size > 1)` merge loop of `generateMaryTree`,
with an explicit iteration bound (each iteration removes at least one node
when `m >= 2`, so `pq.length` iterations always suffice; see `buildLoop`).
The source loops forever when `m < 2` (it would remove one node and push
one back), so the model exits in that case; every claim assumes `m >= 2`,
where the model and the source agree. -/
def buildLoopF (m : Nat) : Nat → List HuffmanTreeNode → List HuffmanTreeNode
  | 0, pq => pq
  | fuel + 1, pq =>
    if 2 ≤ m ∧ 1 < pq.length then
      buildLoopF m fuel (enqueue (pq.drop (min m pq.length))
        (HuffmanTreeNode.node internalTag (sumFreq (pq.take (min m pq.length)))
          (pq.take (min m pq.length))))
    else pq

/-- The `while (pq.size > 1)` merge loop of `generateMaryTree`. -/
def buildLoop (m : Nat) (pq : List HuffmanTreeNode) : List HuffmanTreeNode :=
  buildLoopF m pq.length pq

/-- The `for (let i = 0; i < dummiesNeeded; i++)` dummy-insertion loop,
parameterised by the naming scheme (the two source variants differ here). -/
def addDummies (name : Nat → Str) (pq : List HuffmanTreeNode) (count : Nat) :
    List HuffmanTreeNode :=
  (List.range count).foldl (fun pq i => enqueue pq (HuffmanTreeNode.node (name i) 0 [])) pq

/-- Dummy names `` `dummy${i}` `` used by src/src/App.tsx. -/
def dummyName (i : Nat) : Str := dummyPrefix ++ natToStr i

/-- Dummy names `` `z${i}` `` used by src/unnamed/part_000. -/
def dummyNameAlt (i : Nat) : Str := 'z' :: natToStr i

/-- The body of `generateMaryTree` after the initial leaves have been
enqueued: the `pq.size === 0` / `pq.size === 1` special cases, the dummy
insertion, the merge loop, and the final dequeue.  It is parameterised by
the dummy naming scheme, the only difference between the two source
variants. -/
def generateMaryTreeCore (name : Nat → Str) (m : Nat) (pq : List HuffmanTreeNode) :
    Option HuffmanTreeNode :=
  match pq with
  | [] => none
  | [n] => some n
  | _ =>
    match buildLoop m (addDummies name pq (calculateRequiredDummies pq.length m)) with
    | [] => none
    | r :: _ => some r

def generateMaryTreeWith (name : Nat → Str) (frequencies : List (Str × Nat)) (m : Nat) :
    Option HuffmanTreeNode :=
  generateMaryTreeCore name m
    (frequencies.foldl (fun pq p => enqueue pq (HuffmanTreeNode.node p.1 p.2 [])) [])

/-- `generateMaryTree` from src/src/App.tsx (dummies named `` `dummy${i}` ``). -/
def generateMaryTree (frequencies : List (Str × Nat)) (m : Nat) : Option HuffmanTreeNode :=
  generateMaryTreeWith dummyName frequencies m

/-- `generateMaryTree` from src/unnamed/part_000 (dummies named `` `z${i}` ``). -/
def generateMaryTreeAlt (frequencies : List (Str × Nat)) (m : Nat) : Option HuffmanTreeNode :=
  generateMaryTreeWith dummyNameAlt frequencies m

/-- JavaScript `Map.prototype.set`: update an existing key in place, else
append at the end (insertion order preserved). -/
def mapSet (m : List (Str × Str)) (k v : Str) : List (Str × Str) :=
  if m.any (fun p => decide (p.1 = k)) then
    m.map (fun p => if p.1 = k then (k, v) else p)
  else m ++ [(k, v)]

/-- JavaScript `Map.prototype.get` (on maps with unique keys). -/
def mapGet (m : List (Str × Str)) (k : Str) : Option Str :=
  (m.find? (fun p => decide (p.1 = k))).map Prod.snd

/-- The leaf test of `generateCodes`:
`node.data !== "internal" && !node.data.startsWith("dummy")`. -/
def isRealLeafData (d : Str) : Bool :=
  decide (d ≠ internalTag) && ! dummyPrefix.isPrefixOf d

mutual
/-- `generateCodes` from the source: record a code at every node whose tag
passes the leaf test, otherwise recurse into the children, appending the
child index (via `toString`) to the accumulated code.  `currentCode || "0"`
is the empty-string fallback for the single-symbol tree. -/
def generateCodes : HuffmanTreeNode → Str → List (Str × Str) → List (Str × Str)
  | .node d _ cs, currentCode, codes =>
    if isRealLeafData d then
      mapSet codes d (if currentCode.isEmpty then ['0'] else currentCode)
    else genChildren cs 0 currentCode codes

/-- The `node.children.forEach((child, index) => ...)` traversal. -/
def genChildren : List HuffmanTreeNode → Nat → Str → List (Str × Str) → List (Str × Str)
  | [], _, _, codes => codes
  | c :: cs, i, currentCode, codes =>
    genChildren cs (i + 1) currentCode (generateCodes c (currentCode ++ natToStr i) codes)
end

/-- The `Map.set(char, (get(char) || 0) + 1)` step of `calculateFrequencies`. -/
def bump (freq : List (Str × Nat)) (k : Str) : List (Str × Nat) :=
  if freq.any (fun p => decide (p.1 = k)) then
    freq.map (fun p => if p.1 = k then (p.1, p.2 + 1) else p)
  else freq ++ [(k, 1)]

/-- `calculateFrequencies` from the source: counts per character, keyed by
the one-character string of each character, in first-occurrence order. -/
def calculateFrequencies (text : List Char) : List (Str × Nat) :=
  text.foldl (fun freq c => bump freq [c]) []

/-- The code table that `encode` builds for a given text and branching
factor: `generateCodes(generateMaryTree(calculateFrequencies(text), m), "", codes)`
starting from an empty map (a `null` root leaves the map empty). -/
def codeTable (text : List Char) (m : Nat) : List (Str × Str) :=
  match generateMaryTree (calculateFrequencies text) m with
  | none => []
  | some root => generateCodes root [] []

/-- Same as `codeTable` but through src/unnamed/part_000's tree builder. -/
def codeTableAlt (text : List Char) (m : Nat) : List (Str × Str) :=
  match generateMaryTreeAlt (calculateFrequencies text) m with
  | none => []
  | some root => generateCodes root [] []

/-- The payload-concatenation loop of `encode`:
`for (const char of text) { const code = codes.get(char); if (code) encoded += code; }`.
A missing entry — and also an empty code string, which is falsy — is
silently skipped. -/
def concatCodes (codes : List (Str × Str)) (text : List Char) : Str :=
  text.foldl
    (fun acc c =>
      match mapGet codes [c] with
      | none => acc
      | some code => if code.isEmpty then acc else acc ++ code)
    []

/-- The encoded string returned by `encode` (empty text returns `""`
before any table is built). -/
def encodedPayload (text : List Char) (m : Nat) : Str :=
  if text.isEmpty then [] else concatCodes (codeTable text m) text

/-- `Number(((originalBits - compressedBits) / originalBits * 100).toFixed(2))`,
modelled in exact rational arithmetic with `toFixed(2)` as round-to-nearest
(ties toward positive infinity) at two decimal places. -/
def compressionRatio (text : List Char) (m : Nat) : ℚ :=
  let originalBits : ℚ := (text.length : ℚ) * 8
  let compressedBits : ℚ := ((encodedPayload text m).length : ℚ)
  (round ((originalBits - compressedBits) / originalBits * 100 * 100) : ℤ) / 100

/-- The React state that `encode` mutates via `setFrequencies`,
`setHuffmanCodes`, `setCompressionRatio`, together with the `encodedText`
state set by the `useEffect` from `encode`'s return value. -/
structure AppState where
  encodedText : Str
  compressionRatio : ℚ
  huffmanCodes : List (Str × Str)
  frequencies : List (Str × Nat)
deriving DecidableEq

/-- The `useState` initial values. -/
def initialState : AppState :=
  { encodedText := [], compressionRatio := 0, huffmanCodes := [], frequencies := [] }

/-- One run of `encode(text, m)` followed by `setEncodedText` on its return
value, as performed by the `useEffect`.  On empty text, `encode` returns
`""` before reaching any of the state setters, so every other state field
keeps its previous value. -/
def encodeUpdate (text : List Char) (m : Nat) (s : AppState) : AppState :=
  if text.isEmpty then { s with encodedText := [] }
  else
    { encodedText := encodedPayload text m
      compressionRatio := compressionRatio text m
      huffmanCodes := codeTable text m
      frequencies := calculateFrequencies text }

/-- First table entry whose code is a prefix of the remaining digit
stream. -/
def findCode (codes : List (Str × Str)) (stream : Str) : Option (Str × Str) :=
  codes.find? (fun p => p.2.isPrefixOf stream)

/-- Modelled from the spec: the repository ships no decoder, so `decode` is
built from section 4.5 of the specification — greedily consume digits,
building a trie from the CodeTable, emit a symbol each time a (real) leaf is
reached, restart from the root, and fail (`none`) on a malformed stream.
Matching the unique table code that prefixes the stream is exactly the
trie walk when the table is prefix-free.  The fuel argument bounds the
number of emitted symbols; each consumed code is non-empty, so a fuel of
`stream.length` never runs out. -/
def decodeAux (codes : List (Str × Str)) : Nat → Str → Option (List Str)
  | _, [] => some []
  | 0, _ :: _ => none
  | fuel + 1, d :: rest =>
    match findCode codes (d :: rest) with
    | none => none
    | some p =>
      if p.2.isEmpty then none
      else
        match decodeAux codes fuel ((d :: rest).drop p.2.length) with
        | none => none
        | some syms => some (p.1 :: syms)

/-- Modelled from the spec: `decode(EncodedPayload, CodeTable) → sequence of
Symbol`, see `decodeAux`. -/
def decode (codes : List (Str × Str)) (stream : Str) : Option (List Str) :=
  decodeAux codes stream.length stream

mutual
/-- Specification mirror of `generateCodes`'s classification: the symbols of
the sub-tree's nodes that pass the leaf test, in depth-first order. -/
def realLeafSyms : HuffmanTreeNode → List Str
  | .node d _ cs => if isRealLeafData d then [d] else childSyms cs

def childSyms : List HuffmanTreeNode → List Str
  | [] => []
  | c :: cs => realLeafSyms c ++ childSyms cs
end

mutual
/-- Specification mirror of `generateCodes` without the accumulator: the
list of (symbol, code) entries the walk appends. -/
def codeEntries : HuffmanTreeNode → Str → List (Str × Str)
  | .node d _ cs, cur =>
    if isRealLeafData d then [(d, if cur.isEmpty then ['0'] else cur)]
    else childEntries cs 0 cur

def childEntries : List HuffmanTreeNode → Nat → Str → List (Str × Str)
  | [], _, _ => []
  | c :: cs, i, cur => codeEntries c (cur ++ natToStr i) ++ childEntries cs (i + 1) cur
end

mutual
/-- Every node of the sub-tree has at most `k` children. -/
def arityLeB (k : Nat) : HuffmanTreeNode → Bool
  | .node _ _ cs => decide (cs.length ≤ k) && arityLeAll k cs

def arityLeAll (k : Nat) : List HuffmanTreeNode → Bool
  | [] => true
  | c :: cs => arityLeB k c && arityLeAll k cs
end

mutual
/-- Every node of the sub-tree tagged `"internal"` has exactly `m`
children, and every other node has none. -/
def strictArityB (m : Nat) : HuffmanTreeNode → Bool
  | .node d _ cs =>
    (if d = internalTag then decide (cs.length = m) else decide (cs.length = 0))
      && strictArityAll m cs

def strictArityAll (m : Nat) : List HuffmanTreeNode → Bool
  | [] => true
  | c :: cs => strictArityB m c && strictArityAll m cs
end

/-- All real-leaf symbols held anywhere in the queue. -/
def queueSyms (pq : List HuffmanTreeNode) : List Str :=
  (pq.map realLeafSyms).flatten

theorem insertNode_perm (n : HuffmanTreeNode) (l : List HuffmanTreeNode) :
    (insertNode n l).Perm (n :: l) := by
  induction l with
  | nil => exact List.Perm.refl _
  | cons b bs ih =>
    unfold insertNode
    split
    · exact ((ih.cons b).trans (List.Perm.swap n b bs))
    · exact List.Perm.refl _

theorem pqSort_foldl_perm (l acc : List HuffmanTreeNode) :
    (l.foldl (fun acc x => insertNode x acc) acc).Perm (acc ++ l) := by
  induction l generalizing acc with
  | nil => simp
  | cons b bs ih =>
    simp only [List.foldl_cons]
    refine (ih (insertNode b acc)).trans ?_
    have h1 : (insertNode b acc ++ bs).Perm ((b :: acc) ++ bs) :=
      (insertNode_perm b acc).append_right bs
    refine h1.trans ?_
    simp only [List.cons_append]
    exact (List.perm_middle).symm

theorem pqSort_perm (l : List HuffmanTreeNode) : (pqSort l).Perm l := by
  unfold pqSort
  simpa using pqSort_foldl_perm l []

theorem enqueue_perm (pq : List HuffmanTreeNode) (n : HuffmanTreeNode) :
    (enqueue pq n).Perm (pq ++ [n]) := by
  unfold enqueue
  exact pqSort_perm _

/-- Induction over a tree node with the induction hypothesis available for
each child. -/
theorem HuffmanTreeNode.rec_children {P : HuffmanTreeNode → Prop}
    (h : ∀ d f cs, (∀ c ∈ cs, P c) → P (HuffmanTreeNode.node d f cs)) :
    ∀ n, P n
  | .node d f cs => h d f cs (fun c hc => HuffmanTreeNode.rec_children h c)
termination_by n => sizeOf n
decreasing_by
  have := List.sizeOf_lt_of_mem hc
  simp only [HuffmanTreeNode.node.sizeOf_spec]
  omega

theorem isRealLeafData_internalTag : isRealLeafData internalTag = false := by decide

theorem isPrefixOf_iff {l₁ l₂ : Str} : l₁.isPrefixOf l₂ = true ↔ l₁ <+: l₂ := by
  exact List.isPrefixOf_iff_prefix

theorem isRealLeafData_dummyName (i : Nat) : isRealLeafData (dummyName i) = false := by
  unfold isRealLeafData dummyName
  have : dummyPrefix.isPrefixOf (dummyPrefix ++ natToStr i) = true :=
    isPrefixOf_iff.mpr (List.prefix_append _ _)
  simp [this]

theorem isRealLeafData_singleton (c : Char) : isRealLeafData [c] = true := by
  unfold isRealLeafData
  have h1 : ¬ ([c] = internalTag) := by
    intro h
    have := congrArg List.length h
    simp [internalTag] at this
  have h2 : dummyPrefix.isPrefixOf [c] = false := by
    simp [dummyPrefix, List.isPrefixOf]
  simp [h1, h2]

theorem realLeafSyms_singleton (c : Char) (f : Nat) :
    realLeafSyms (HuffmanTreeNode.node [c] f []) = [[c]] := by
  unfold realLeafSyms
  simp [isRealLeafData_singleton]

theorem realLeafSyms_dummy (i f : Nat) :
    realLeafSyms (HuffmanTreeNode.node (dummyName i) f []) = [] := by
  unfold realLeafSyms
  simp [isRealLeafData_dummyName]
  unfold childSyms
  simp [isRealLeafData_dummyName]

theorem childSyms_eq_flatten (cs : List HuffmanTreeNode) :
    childSyms cs = (cs.map realLeafSyms).flatten := by
  induction cs with
  | nil => rfl
  | cons c cs ih => simp [childSyms, ih]

theorem realLeafSyms_internal (f : Nat) (cs : List HuffmanTreeNode) :
    realLeafSyms (HuffmanTreeNode.node internalTag f cs) = (cs.map realLeafSyms).flatten := by
  unfold realLeafSyms
  simp [isRealLeafData_internalTag, childSyms_eq_flatten]

theorem childEntries_keys_aux (cs : List HuffmanTreeNode)
    (ih : ∀ c ∈ cs, ∀ cur, (codeEntries c cur).map Prod.fst = realLeafSyms c) :
    ∀ i cur, (childEntries cs i cur).map Prod.fst = childSyms cs := by
  induction cs with
  | nil => intro i cur; rfl
  | cons c cs ihl =>
    intro i cur
    simp only [childEntries, childSyms, List.map_append]
    rw [ih c (by simp), ihl (fun c h => ih c (by simp [h]))]

/-- The keys that `generateCodes` would record for a sub-tree are exactly
its real-leaf symbols, in depth-first order. -/
theorem codeEntries_keys (n : HuffmanTreeNode) :
    ∀ cur, (codeEntries n cur).map Prod.fst = realLeafSyms n := by
  induction n using HuffmanTreeNode.rec_children with
  | h d f cs ih =>
    intro cur
    unfold codeEntries realLeafSyms
    split
    · simp
    · exact childEntries_keys_aux cs ih 0 cur

theorem mapSet_not_mem (m : List (Str × Str)) (k v : Str) (h : k ∉ m.map Prod.fst) :
    mapSet m k v = m ++ [(k, v)] := by
  unfold mapSet
  have hany : m.any (fun p => decide (p.1 = k)) = false := by
    rw [List.any_eq_false]
    intro p hp
    simp only [decide_eq_true_eq]
    intro hk
    exact h (by simpa [hk] using List.mem_map_of_mem Prod.fst hp)
  simp [hany]

theorem genChildren_eq_aux (cs : List HuffmanTreeNode)
    (ih : ∀ c ∈ cs, ∀ cur codes, (realLeafSyms c).Nodup →
      (∀ k ∈ realLeafSyms c, k ∉ codes.map Prod.fst) →
      generateCodes c cur codes = codes ++ codeEntries c cur) :
    ∀ i cur codes, (childSyms cs).Nodup →
      (∀ k ∈ childSyms cs, k ∉ codes.map Prod.fst) →
      genChildren cs i cur codes = codes ++ childEntries cs i cur := by
  induction cs with
  | nil => intro i cur codes _ _; simp [genChildren, childEntries]
  | cons c cs ihl =>
    intro i cur codes hnd hdisj
    simp only [childSyms, List.nodup_append] at hnd
    obtain ⟨hnd1, hnd2, hdisj12⟩ := hnd
    have hstep : generateCodes c (cur ++ natToStr i) codes =
        codes ++ codeEntries c (cur ++ natToStr i) :=
      ih c (by simp) _ codes hnd1
        (fun k hk => hdisj k (by simp [childSyms, hk]))
    simp only [genChildren, hstep]
    rw [ihl (fun c h => ih c (by simp [h])) (i + 1) cur _ hnd2 ?_]
    · simp [childEntries]
    · intro k hk
      simp only [List.map_append, List.mem_append, codeEntries_keys]
      push_neg
      refine ⟨hdisj k (by simp [childSyms, hk]), ?_⟩
      intro hmem
      exact hdisj12 hmem hk

/-- When the real-leaf symbols of the tree are distinct and absent from the
accumulator, `generateCodes` appends exactly the `codeEntries` of the tree. -/
theorem generateCodes_eq (n : HuffmanTreeNode) :
    ∀ cur codes, (realLeafSyms n).Nodup →
      (∀ k ∈ realLeafSyms n, k ∉ codes.map Prod.fst) →
      generateCodes n cur codes = codes ++ codeEntries n cur := by
  induction n using HuffmanTreeNode.rec_children with
  | h d f cs ih =>
    intro cur codes hnd hdisj
    unfold generateCodes codeEntries
    by_cases hleaf : isRealLeafData d = true
    · simp only [hleaf, if_true]
      refine mapSet_not_mem codes d _ ?_
      have : d ∈ realLeafSyms (HuffmanTreeNode.node d f cs) := by
        unfold realLeafSyms; simp [hleaf]
      exact hdisj d this
    · simp only [Bool.not_eq_true] at hleaf
      simp only [hleaf, Bool.false_eq_true, if_false]
      have hsyms : realLeafSyms (HuffmanTreeNode.node d f cs) = childSyms cs := by
        unfold realLeafSyms; simp [hleaf]
      rw [hsyms] at hnd hdisj
      exact genChildren_eq_aux cs ih 0 cur codes hnd hdisj

theorem perm_flatten {α : Type} {l₁ l₂ : List (List α)} (h : l₁.Perm l₂) :
    l₁.flatten.Perm l₂.flatten := by
  induction h with
  | nil => exact List.Perm.refl _
  | cons x _ ih => simpa using ih.append_left x
  | swap x y l =>
    simp only [List.flatten_cons, ← List.append_assoc]
    exact (List.perm_append_comm).append_right _
  | trans _ _ ih₁ ih₂ => exact ih₁.trans ih₂

theorem queueSyms_perm {pq₁ pq₂ : List HuffmanTreeNode} (h : pq₁.Perm pq₂) :
    (queueSyms pq₁).Perm (queueSyms pq₂) :=
  perm_flatten (h.map realLeafSyms)

theorem queueSyms_append (a b : List HuffmanTreeNode) :
    queueSyms (a ++ b) = queueSyms a ++ queueSyms b := by
  unfold queueSyms
  simp

theorem queueSyms_enqueue (pq : List HuffmanTreeNode) (n : HuffmanTreeNode) :
    (queueSyms (enqueue pq n)).Perm (queueSyms pq ++ realLeafSyms n) := by
  refine (queueSyms_perm (enqueue_perm pq n)).trans ?_
  rw [queueSyms_append]
  unfold queueSyms
  simp

theorem buildLoopF_syms (m : Nat) :
    ∀ (fuel : Nat) (pq : List HuffmanTreeNode),
      (queueSyms (buildLoopF m fuel pq)).Perm (queueSyms pq) := by
  intro fuel
  induction fuel with
  | zero => intro pq; exact List.Perm.refl _
  | succ fuel ih =>
    intro pq
    unfold buildLoopF
    split
    · refine (ih _).trans ?_
      refine (queueSyms_enqueue _ _).trans ?_
      rw [realLeafSyms_internal]
      have h1 : queueSyms (pq.drop (min m pq.length)) ++
          ((pq.take (min m pq.length)).map realLeafSyms).flatten =
          queueSyms (pq.drop (min m pq.length) ++ pq.take (min m pq.length)) := by
        rw [queueSyms_append]; rfl
      rw [h1]
      refine (queueSyms_perm List.perm_append_comm).trans ?_
      rw [List.take_append_drop]
    · exact List.Perm.refl _

theorem buildLoop_syms (m : Nat) (pq : List HuffmanTreeNode) :
    (queueSyms (buildLoop m pq)).Perm (queueSyms pq) :=
  buildLoopF_syms m pq.length pq

theorem buildLoopF_length_le (m : Nat) (h2 : 2 ≤ m) :
    ∀ (fuel : Nat) (pq : List HuffmanTreeNode), pq.length ≤ fuel + 1 →
      (buildLoopF m fuel pq).length ≤ 1 := by
  intro fuel
  induction fuel with
  | zero =>
    intro pq hf
    simpa [buildLoopF] using hf
  | succ fuel ih =>
    intro pq hf
    unfold buildLoopF
    split
    · next h =>
      refine ih _ ?_
      rw [enqueue_length, List.length_drop]
      omega
    · next h => omega

theorem buildLoop_length_le (m : Nat) (pq : List HuffmanTreeNode) (h2 : 2 ≤ m) :
    (buildLoop m pq).length ≤ 1 :=
  buildLoopF_length_le m h2 pq.length pq (by omega)

theorem buildLoopF_length_pos (m : Nat) :
    ∀ (fuel : Nat) (pq : List HuffmanTreeNode), 1 ≤ pq.length →
      1 ≤ (buildLoopF m fuel pq).length := by
  intro fuel
  induction fuel with
  | zero => intro pq h; exact h
  | succ fuel ih =>
    intro pq h
    unfold buildLoopF
    split
    · exact ih _ (by simp [enqueue_length])
    · exact h

theorem buildLoop_length_pos (m : Nat) (pq : List HuffmanTreeNode) (h : 1 ≤ pq.length) :
    1 ≤ (buildLoop m pq).length :=
  buildLoopF_length_pos m pq.length pq h

theorem addDummies_syms_with (name : Nat → Str)
    (hname : ∀ i, realLeafSyms (HuffmanTreeNode.node (name i) 0 []) = []) :
    ∀ (l : List Nat) (acc : List HuffmanTreeNode),
      (queueSyms (l.foldl (fun pq i => enqueue pq (HuffmanTreeNode.node (name i) 0 [])) acc)).Perm
        (queueSyms acc) := by
  intro l
  induction l with
  | nil => intro acc; exact List.Perm.refl _
  | cons i l ih =>
    intro acc
    simp only [List.foldl_cons]
    refine (ih _).trans ?_
    refine (queueSyms_enqueue acc _).trans ?_
    simp [hname i]

theorem addDummies_syms (pq : List HuffmanTreeNode) (count : Nat) :
    (queueSyms (addDummies dummyName pq count)).Perm (queueSyms pq) := by
  unfold addDummies
  exact addDummies_syms_with dummyName (fun i => realLeafSyms_dummy i 0) (List.range count) pq

theorem initQueue_syms (fl : List (Str × Nat))
    (hkeys : ∀ p ∈ fl, isRealLeafData p.1 = true) :
    ∀ acc : List HuffmanTreeNode,
      (queueSyms (fl.foldl (fun pq p => enqueue pq (HuffmanTreeNode.node p.1 p.2 [])) acc)).Perm
        (queueSyms acc ++ fl.map Prod.fst) := by
  induction fl with
  | nil => intro acc; simp
  | cons p fl ih =>
    intro acc
    simp only [List.foldl_cons]
    refine (ih (fun q hq => hkeys q (by simp [hq])) _).trans ?_
    have hp : realLeafSyms (HuffmanTreeNode.node p.1 p.2 []) = [p.1] := by
      unfold realLeafSyms
      simp [hkeys p (by simp)]
    refine List.Perm.trans ((queueSyms_enqueue acc _).append_right (fl.map Prod.fst)) ?_
    rw [hp]
    simp only [List.map_cons, List.append_assoc, List.singleton_append]
    exact List.Perm.refl _

theorem addDummies_syms_gen (name : Nat → Str)
    (hdum : ∀ i, realLeafSyms (HuffmanTreeNode.node (name i) 0 []) = [])
    (pq : List HuffmanTreeNode) (count : Nat) :
    (queueSyms (addDummies name pq count)).Perm (queueSyms pq) := by
  unfold addDummies
  exact addDummies_syms_with name hdum (List.range count) pq

/-- The real-leaf symbols of the tree returned by `generateMaryTree`'s body
are, up to order, exactly the real-leaf symbols of the initial queue. -/
theorem generateMaryTreeCore_syms (name : Nat → Str) (m : Nat) (pq : List HuffmanTreeNode)
    (h2 : 2 ≤ m)
    (hdum : ∀ i, realLeafSyms (HuffmanTreeNode.node (name i) 0 []) = []) :
    ∀ root, generateMaryTreeCore name m pq = some root →
      (realLeafSyms root).Perm (queueSyms pq) := by
  intro root hroot
  unfold generateMaryTreeCore at hroot
  split at hroot
  · exact absurd hroot (by simp)
  · next n =>
    have hn : n = root := by simpa using hroot
    subst hn
    simp [queueSyms]
  · next l hne1 hne2 =>
    split at hroot
    · exact absurd hroot (by simp)
    · next r rest heq =>
      have hr : r = root := by simpa using hroot
      subst hr
      have hle : (buildLoop m (addDummies name pq
          (calculateRequiredDummies pq.length m))).length ≤ 1 :=
        buildLoop_length_le m _ h2
      rw [heq] at hle
      have hrest : rest = [] := by
        simp only [List.length_cons] at hle
        exact List.length_eq_zero.mp (by omega)
      subst hrest
      have h1 : (queueSyms [r]).Perm
          (queueSyms (addDummies name pq (calculateRequiredDummies pq.length m))) := by
        rw [← heq]
        exact buildLoop_syms m _
      have h2' := h1.trans (addDummies_syms_gen name hdum pq _)
      simpa [queueSyms] using h2'

theorem generateMaryTreeWith_syms (name : Nat → Str) (fl : List (Str × Nat)) (m : Nat)
    (h2 : 2 ≤ m)
    (hdum : ∀ i, realLeafSyms (HuffmanTreeNode.node (name i) 0 []) = [])
    (hkeys : ∀ p ∈ fl, isRealLeafData p.1 = true) :
    ∀ root, generateMaryTreeWith name fl m = some root →
      (realLeafSyms root).Perm (fl.map Prod.fst) := by
  intro root hroot
  unfold generateMaryTreeWith at hroot
  have h := generateMaryTreeCore_syms name m _ h2 hdum root hroot
  refine h.trans ?_
  have := initQueue_syms fl hkeys []
  simpa [queueSyms] using this

theorem anyKey_eq_true {α : Type} (freq : List (Str × α)) (k : Str) :
    (freq.any (fun p => decide (p.1 = k)) = true) ↔ k ∈ freq.map Prod.fst := by
  simp only [List.any_eq_true, decide_eq_true_eq, List.mem_map]

theorem mem_bump_keys (freq : List (Str × Nat)) (j k : Str) :
    k ∈ (bump freq j).map Prod.fst ↔ k ∈ freq.map Prod.fst ∨ k = j := by
  unfold bump
  split
  · next h =>
    have hj : j ∈ freq.map Prod.fst := (anyKey_eq_true freq j).mp h
    have hkeys : (freq.map (fun p => if p.1 = j then (p.1, p.2 + 1) else p)).map Prod.fst =
        freq.map Prod.fst := by
      rw [List.map_map]
      refine List.map_congr_left ?_
      intro p _
      by_cases hp : p.1 = j <;> simp [hp]
    rw [hkeys]
    constructor
    · exact Or.inl
    · rintro (h' | rfl)
      · exact h'
      · exact hj
  · simp

theorem foldl_bump_keys_mem (t : List Char) :
    ∀ (acc : List (Str × Nat)) (k : Str),
      k ∈ ((t.foldl (fun freq c => bump freq [c]) acc).map Prod.fst) ↔
        k ∈ acc.map Prod.fst ∨ ∃ c ∈ t, k = [c] := by
  induction t with
  | nil => intro acc k; simp
  | cons c t ih =>
    intro acc k
    simp only [List.foldl_cons]
    rw [ih (bump acc [c]) k, mem_bump_keys]
    constructor
    · rintro ((h | rfl) | ⟨c', hc', rfl⟩)
      · exact Or.inl h
      · exact Or.inr ⟨c, by simp⟩
      · exact Or.inr ⟨c', by simp [hc']⟩
    · rintro (h | ⟨c', hc', rfl⟩)
      · exact Or.inl (Or.inl h)
      · rcases List.mem_cons.mp hc' with rfl | hc'
        · exact Or.inl (Or.inr rfl)
        · exact Or.inr ⟨c', hc', rfl⟩

theorem bump_keys_nodup (freq : List (Str × Nat)) (k : Str)
    (h : (freq.map Prod.fst).Nodup) : ((bump freq k).map Prod.fst).Nodup := by
  unfold bump
  split
  · next hmem =>
    have hkeys : (freq.map (fun p => if p.1 = k then (p.1, p.2 + 1) else p)).map Prod.fst =
        freq.map Prod.fst := by
      rw [List.map_map]
      refine List.map_congr_left ?_
      intro p _
      by_cases hp : p.1 = k <;> simp [hp]
    rw [hkeys]; exact h
  · next hmem =>
    have hk : k ∉ freq.map Prod.fst := fun hin =>
      hmem (by simpa using (anyKey_eq_true freq k).mpr hin)
    simp [List.nodup_append, h, hk]

theorem foldl_bump_keys_nodup (t : List Char) :
    ∀ acc : List (Str × Nat), (acc.map Prod.fst).Nodup →
      (((t.foldl (fun freq c => bump freq [c]) acc).map Prod.fst)).Nodup := by
  induction t with
  | nil => intro acc h; exact h
  | cons c t ih =>
    intro acc h
    simp only [List.foldl_cons]
    exact ih _ (bump_keys_nodup acc [c] h)

/-- The frequency table's keys are distinct. -/
theorem calcFreq_keys_nodup (t : List Char) :
    ((calculateFrequencies t).map Prod.fst).Nodup := by
  unfold calculateFrequencies
  exact foldl_bump_keys_nodup t [] (by simp)

/-- The frequency table has a key for exactly the characters of the text. -/
theorem calcFreq_keys_mem (t : List Char) (c : Char) :
    [c] ∈ (calculateFrequencies t).map Prod.fst ↔ c ∈ t := by
  unfold calculateFrequencies
  rw [foldl_bump_keys_mem t [] [c]]
  simp

/-- Every frequency-table key is a one-character string. -/
theorem calcFreq_keys_singleton (t : List Char) :
    ∀ k ∈ (calculateFrequencies t).map Prod.fst, ∃ c ∈ t, k = [c] := by
  intro k hk
  unfold calculateFrequencies at hk
  rw [foldl_bump_keys_mem t [] k] at hk
  simpa using hk

theorem calcFreq_keys_real (t : List Char) :
    ∀ p ∈ calculateFrequencies t, isRealLeafData p.1 = true := by
  intro p hp
  obtain ⟨c, _, hc⟩ := calcFreq_keys_singleton t p.1 (List.mem_map_of_mem Prod.fst hp)
  rw [hc]
  exact isRealLeafData_singleton c

theorem foldl_enqueue_length {β : Type} (f : β → HuffmanTreeNode) (l : List β) :
    ∀ acc : List HuffmanTreeNode,
      (l.foldl (fun pq x => enqueue pq (f x)) acc).length = acc.length + l.length := by
  induction l with
  | nil => intro acc; simp
  | cons x l ih =>
    intro acc
    simp only [List.foldl_cons]
    rw [ih (enqueue acc (f x)), enqueue_length]
    simp only [List.length_cons]
    omega

theorem addDummies_length (name : Nat → Str) (pq : List HuffmanTreeNode) (count : Nat) :
    (addDummies name pq count).length = pq.length + count := by
  unfold addDummies
  rw [foldl_enqueue_length (fun i => HuffmanTreeNode.node (name i) 0 []) (List.range count) pq]
  simp

theorem generateMaryTreeCore_ne_none (name : Nat → Str) (m : Nat)
    (pq : List HuffmanTreeNode) (h : pq ≠ []) :
    generateMaryTreeCore name m pq ≠ none := by
  unfold generateMaryTreeCore
  split
  · exact absurd rfl h
  · simp
  · split
    · next heq =>
      exfalso
      have hpos : 1 ≤ (buildLoop m (addDummies name pq
          (calculateRequiredDummies pq.length m))).length := by
        refine buildLoop_length_pos m _ ?_
        rw [addDummies_length]
        have : pq ≠ [] := h
        have : 1 ≤ pq.length := List.length_pos.mpr this
        omega
      rw [heq] at hpos
      simp at hpos
    · simp

theorem generateMaryTree_ne_none (fl : List (Str × Nat)) (m : Nat) (h : fl ≠ []) :
    generateMaryTree fl m ≠ none := by
  unfold generateMaryTree generateMaryTreeWith
  refine generateMaryTreeCore_ne_none dummyName m _ ?_
  have := foldl_enqueue_length (fun p : Str × Nat => HuffmanTreeNode.node p.1 p.2 []) fl []
  intro hempty
  rw [hempty] at this
  simp at this
  exact h (List.length_eq_zero.mp this.symm)

/-- When the tree exists, the code table is exactly the tree's
`codeEntries`, and the tree's real-leaf symbols are a permutation of the
frequency-table keys. -/
theorem codeTable_eq_entries (text : List Char) (m : Nat) (h2 : 2 ≤ m) :
    ∀ root, generateMaryTree (calculateFrequencies text) m = some root →
      codeTable text m = codeEntries root [] ∧
        (realLeafSyms root).Perm ((calculateFrequencies text).map Prod.fst) := by
  intro root hroot
  have hperm := generateMaryTreeWith_syms dummyName (calculateFrequencies text) m h2
    (fun i => realLeafSyms_dummy i 0) (calcFreq_keys_real text) root hroot
  have hnodup : (realLeafSyms root).Nodup :=
    hperm.nodup_iff.mpr (calcFreq_keys_nodup text)
  refine ⟨?_, hperm⟩
  unfold codeTable
  rw [hroot]
  show generateCodes root [] [] = codeEntries root []
  rw [generateCodes_eq root [] [] hnodup (by simp)]
  simp

theorem codeTable_keys_perm (text : List Char) (m : Nat) (h2 : 2 ≤ m) :
    (((codeTable text m).map Prod.fst)).Perm ((calculateFrequencies text).map Prod.fst) := by
  cases hroot : generateMaryTree (calculateFrequencies text) m with
  | none =>
    have hfl : calculateFrequencies text = [] := by
      by_contra hne
      exact generateMaryTree_ne_none _ m hne hroot
    unfold codeTable
    rw [hroot, hfl]
    simp
  | some root =>
    obtain ⟨heq, hperm⟩ := codeTable_eq_entries text m h2 root hroot
    rw [heq, codeEntries_keys]
    exact hperm

theorem toDigitsCore_ne_nil (base : Nat) :
    ∀ (fuel n : Nat) (ds : List Char), ds ≠ [] → Nat.toDigitsCore base fuel n ds ≠ [] := by
  intro fuel
  induction fuel with
  | zero => intro n ds h; exact h
  | succ fuel ih =>
    intro n ds h
    show (if n / base = 0 then (n % base).digitChar :: ds
      else Nat.toDigitsCore base fuel (n / base) ((n % base).digitChar :: ds)) ≠ []
    split
    · simp
    · exact ih _ _ (by simp)

theorem natToStr_ne_nil (n : Nat) : natToStr n ≠ [] := by
  unfold natToStr Nat.toDigits
  show (if n / 10 = 0 then [(n % 10).digitChar]
    else Nat.toDigitsCore 10 n (n / 10) [(n % 10).digitChar]) ≠ []
  split
  · simp
  · exact toDigitsCore_ne_nil 10 _ _ _ (by simp)

theorem natToStr_digit {i : Nat} (h : i < 10) : natToStr i = [Nat.digitChar i] := by
  interval_cases i <;> rfl

theorem digitChar_inj {i j : Nat} (hi : i < 10) (hj : j < 10)
    (h : Nat.digitChar i = Nat.digitChar j) : i = j := by
  interval_cases i <;> interval_cases j <;> revert h <;> decide

theorem no_prefix_of_digit_ne {cur a b : Str} {x y : Char} (hxy : x ≠ y) :
    ¬ ((cur ++ x :: a) <+: (cur ++ y :: b)) := by
  intro h
  rw [List.prefix_append_right_inj] at h
  rw [List.cons_prefix_cons] at h
  exact hxy h.1

theorem childEntries_digit_aux (cs : List HuffmanTreeNode)
    (ih : ∀ c ∈ cs, ∀ cur, cur ≠ [] → ∀ p ∈ codeEntries c cur, cur <+: p.2) :
    ∀ i cur p, p ∈ childEntries cs i cur →
      ∃ j, i ≤ j ∧ j < i + cs.length ∧ (cur ++ natToStr j) <+: p.2 := by
  induction cs with
  | nil => intro i cur p hp; simp [childEntries] at hp
  | cons c cs ihl =>
    intro i cur p hp
    unfold childEntries at hp
    rcases List.mem_append.mp hp with hl | hr
    · refine ⟨i, le_refl i, by simp, ?_⟩
      exact ih c (by simp) (cur ++ natToStr i) (by simp [natToStr_ne_nil]) p hl
    · obtain ⟨j, hij, hjlt, hpre⟩ := ihl (fun c h => ih c (by simp [h])) (i + 1) cur p hr
      exact ⟨j, by omega, by simp only [List.length_cons]; omega, hpre⟩

/-- Every recorded code extends the accumulated digit string when the
latter is non-empty. -/
theorem codeEntries_ext (n : HuffmanTreeNode) :
    ∀ cur, cur ≠ [] → ∀ p ∈ codeEntries n cur, cur <+: p.2 := by
  induction n using HuffmanTreeNode.rec_children with
  | h d f cs ih =>
    intro cur hcur p hp
    unfold codeEntries at hp
    split at hp
    · have hcur' : cur.isEmpty = false := by
        cases cur
        · exact absurd rfl hcur
        · rfl
      simp [hcur'] at hp
      rw [hp]
    · obtain ⟨j, _, _, hpre⟩ := childEntries_digit_aux cs ih 0 cur p hp
      exact ((List.prefix_append cur (natToStr j)).trans hpre)

theorem childEntries_digit (cs : List HuffmanTreeNode) (i : Nat) (cur : Str) (p : Str × Str)
    (hp : p ∈ childEntries cs i cur) :
    ∃ j, i ≤ j ∧ j < i + cs.length ∧ (cur ++ natToStr j) <+: p.2 :=
  childEntries_digit_aux cs (fun c _ => codeEntries_ext c) i cur p hp

theorem arityLeB_node {k : Nat} {d : Str} {f : Nat} {cs : List HuffmanTreeNode}
    (h : arityLeB k (HuffmanTreeNode.node d f cs) = true) :
    cs.length ≤ k ∧ arityLeAll k cs = true := by
  unfold arityLeB at h
  simpa using h

theorem arityLeAll_mem {k : Nat} {cs : List HuffmanTreeNode} {c : HuffmanTreeNode}
    (h : arityLeAll k cs = true) (hc : c ∈ cs) : arityLeB k c = true := by
  induction cs with
  | nil => simp at hc
  | cons b bs ih =>
    unfold arityLeAll at h
    rw [Bool.and_eq_true] at h
    rcases List.mem_cons.mp hc with rfl | hc
    · exact h.1
    · exact ih h.2 hc

theorem arityLeAll_of_forall {k : Nat} {cs : List HuffmanTreeNode}
    (h : ∀ c ∈ cs, arityLeB k c = true) : arityLeAll k cs = true := by
  induction cs with
  | nil => rfl
  | cons b bs ih =>
    unfold arityLeAll
    rw [Bool.and_eq_true]
    exact ⟨h b (by simp), ih (fun c hc => h c (by simp [hc]))⟩

theorem arityLeB_leaf (k : Nat) (d : Str) (f : Nat) :
    arityLeB k (HuffmanTreeNode.node d f []) = true := by
  unfold arityLeB arityLeAll
  simp

theorem arityLeB_mono {k k' : Nat} (hk : k ≤ k') (n : HuffmanTreeNode) :
    arityLeB k n = true → arityLeB k' n = true := by
  induction n using HuffmanTreeNode.rec_children with
  | h d f cs ih =>
    intro h
    obtain ⟨hlen, hall⟩ := arityLeB_node h
    unfold arityLeB
    rw [Bool.and_eq_true]
    refine ⟨by simp; omega, arityLeAll_of_forall ?_⟩
    intro c hc
    exact ih c hc (arityLeAll_mem hall hc)

/-- No code recorded for one entry is a weak prefix of the code of a
different entry. -/
def NoPrefixPair (p q : Str × Str) : Prop := ¬ (p.2 <+: q.2) ∧ ¬ (q.2 <+: p.2)

def PrefixFreeEntries (l : List (Str × Str)) : Prop := l.Pairwise NoPrefixPair

theorem noPrefixPair_of_digits {cur : Str} {p q : Str × Str} {i j : Nat}
    (hi : i < 10) (hj : j < 10) (hij : i ≠ j)
    (hp : (cur ++ natToStr i) <+: p.2) (hq : (cur ++ natToStr j) <+: q.2) :
    NoPrefixPair p q := by
  rw [natToStr_digit hi] at hp
  rw [natToStr_digit hj] at hq
  obtain ⟨a, ha⟩ := hp
  obtain ⟨b, hb⟩ := hq
  have ha' : p.2 = cur ++ Nat.digitChar i :: a := by
    rw [← ha]; simp
  have hb' : q.2 = cur ++ Nat.digitChar j :: b := by
    rw [← hb]; simp
  constructor
  · rw [ha', hb']
    exact no_prefix_of_digit_ne (fun h => hij (digitChar_inj hi hj h))
  · rw [ha', hb']
    exact no_prefix_of_digit_ne (fun h => hij (digitChar_inj hj hi h).symm)

theorem childEntries_prefixFree_aux (cs : List HuffmanTreeNode)
    (ihpf : ∀ c ∈ cs, arityLeB 10 c = true → ∀ cur, PrefixFreeEntries (codeEntries c cur))
    (hball : arityLeAll 10 cs = true) :
    ∀ i cur, i + cs.length ≤ 10 → PrefixFreeEntries (childEntries cs i cur) := by
  induction cs with
  | nil => intro i cur _; exact List.Pairwise.nil
  | cons c cs ihl =>
    intro i cur hbound
    simp only [List.length_cons] at hbound
    unfold childEntries
    rw [PrefixFreeEntries, List.pairwise_append]
    refine ⟨?_, ?_, ?_⟩
    · exact ihpf c (by simp) (arityLeAll_mem hball (by simp)) _
    · refine ihl (fun c h => ihpf c (by simp [h])) ?_ (i + 1) cur (by omega)
      have : ∀ b ∈ cs, arityLeB 10 b = true := fun b hb =>
        arityLeAll_mem hball (by simp [hb])
      exact arityLeAll_of_forall this
    · intro p hp q hq
      have hpd : (cur ++ natToStr i) <+: p.2 :=
        codeEntries_ext c _ (by simp [natToStr_ne_nil]) p hp
      obtain ⟨j, hij, hjlt, hqd⟩ := childEntries_digit cs (i + 1) cur q hq
      exact noPrefixPair_of_digits (by omega) (by omega) (by omega) hpd hqd

/-- Codes recorded over a tree whose nodes all have at most ten children
form a prefix-free set: single-character digit strings distinguish sibling
subtrees. -/
theorem codeEntries_prefixFree (n : HuffmanTreeNode) :
    arityLeB 10 n = true → ∀ cur, PrefixFreeEntries (codeEntries n cur) := by
  induction n using HuffmanTreeNode.rec_children with
  | h d f cs ih =>
    intro hb cur
    unfold codeEntries
    split
    · exact List.pairwise_singleton _ _
    · obtain ⟨hlen, hall⟩ := arityLeB_node hb
      exact childEntries_prefixFree_aux cs ih hall 0 cur (by omega)

theorem mem_of_mem_enqueue {pq : List HuffmanTreeNode} {n x : HuffmanTreeNode}
    (hx : x ∈ enqueue pq n) : x ∈ pq ∨ x = n := by
  have := (enqueue_perm pq n).mem_iff.mp hx
  simpa using this

theorem buildLoopF_arity (m k : Nat) (hmk : m ≤ k) :
    ∀ (fuel : Nat) (pq : List HuffmanTreeNode),
      (∀ x ∈ pq, arityLeB k x = true) →
      ∀ x ∈ buildLoopF m fuel pq, arityLeB k x = true := by
  intro fuel
  induction fuel with
  | zero => intro pq hall; exact hall
  | succ fuel ih =>
    intro pq hall
    unfold buildLoopF
    split
    · refine ih _ ?_
      intro x hx
      rcases mem_of_mem_enqueue hx with hx | rfl
      · exact hall x (List.mem_of_mem_drop hx)
      · unfold arityLeB
        rw [Bool.and_eq_true]
        constructor
        · simp only [decide_eq_true_eq, List.length_take]
          omega
        · exact arityLeAll_of_forall fun c hc => hall c (List.mem_of_mem_take hc)
    · exact hall

theorem buildLoop_arity (m k : Nat) (hmk : m ≤ k) (pq : List HuffmanTreeNode)
    (hall : ∀ x ∈ pq, arityLeB k x = true) :
    ∀ x ∈ buildLoop m pq, arityLeB k x = true :=
  buildLoopF_arity m k hmk pq.length pq hall

theorem foldl_enqueue_forall {β : Type} (f : β → HuffmanTreeNode)
    (P : HuffmanTreeNode → Prop) (l : List β) (hP : ∀ x ∈ l, P (f x)) :
    ∀ acc, (∀ n ∈ acc, P n) →
      ∀ n ∈ l.foldl (fun pq x => enqueue pq (f x)) acc, P n := by
  induction l with
  | nil => intro acc hacc; exact hacc
  | cons x l ih =>
    intro acc hacc
    simp only [List.foldl_cons]
    refine ih (fun y hy => hP y (by simp [hy])) _ ?_
    intro n hn
    rcases mem_of_mem_enqueue hn with hn | rfl
    · exact hacc n hn
    · exact hP x (by simp)

theorem generateMaryTreeCore_arity (name : Nat → Str) (m : Nat)
    (pq : List HuffmanTreeNode) (hall : ∀ x ∈ pq, arityLeB m x = true) :
    ∀ root, generateMaryTreeCore name m pq = some root → arityLeB m root = true := by
  intro root hroot
  unfold generateMaryTreeCore at hroot
  split at hroot
  · simp at hroot
  · next n =>
    have hn : n = root := by simpa using hroot
    subst hn
    exact hall n (by simp)
  · split at hroot
    · simp at hroot
    · next r rest heq =>
      have hr : r = root := by simpa using hroot
      subst hr
      have hdum : ∀ n ∈ addDummies name pq (calculateRequiredDummies pq.length m),
          arityLeB m n = true := by
        unfold addDummies
        exact foldl_enqueue_forall _ _ _ (fun i _ => arityLeB_leaf m (name i) 0) _ hall
      have hfin := buildLoop_arity m m (le_refl m) _ hdum
      rw [heq] at hfin
      exact hfin r (by simp)

/-- Every tree `generateMaryTree` builds has node arity at most `m`. -/
theorem generateMaryTreeWith_arity (name : Nat → Str) (fl : List (Str × Nat)) (m : Nat) :
    ∀ root, generateMaryTreeWith name fl m = some root → arityLeB m root = true := by
  intro root hroot
  unfold generateMaryTreeWith at hroot
  refine generateMaryTreeCore_arity name m _ ?_ root hroot
  exact foldl_enqueue_forall _ _ fl (fun p _ => arityLeB_leaf m p.1 p.2) [] (by simp)

/-- The code table is prefix-free whenever the tree was built with
`2 <= m <= 10` (each child index then contributes a single digit
character). -/
theorem codeTable_prefixFree (text : List Char) (m : Nat) (h2 : 2 ≤ m) (h10 : m ≤ 10) :
    PrefixFreeEntries (codeTable text m) := by
  cases hroot : generateMaryTree (calculateFrequencies text) m with
  | none =>
    unfold codeTable
    rw [hroot]
    exact List.Pairwise.nil
  | some root =>
    obtain ⟨heq, _⟩ := codeTable_eq_entries text m h2 root hroot
    rw [heq]
    have harity := generateMaryTreeWith_arity dummyName (calculateFrequencies text) m root hroot
    exact codeEntries_prefixFree root (arityLeB_mono h10 root harity) []

theorem codeTable_codes_ne_nil (text : List Char) (m : Nat) (h2 : 2 ≤ m) :
    ∀ p ∈ codeTable text m, p.2 ≠ [] := by
  intro p hp
  cases hroot : generateMaryTree (calculateFrequencies text) m with
  | none =>
    unfold codeTable at hp
    rw [hroot] at hp
    simp at hp
  | some root =>
    obtain ⟨heq, _⟩ := codeTable_eq_entries text m h2 root hroot
    rw [heq] at hp
    obtain ⟨d, f, cs⟩ := root
    unfold codeEntries at hp
    split at hp
    · simp only [List.mem_singleton] at hp
      subst hp
      simp
    · obtain ⟨j, _, _, hpre⟩ := childEntries_digit _ 0 [] p hp
      intro hnil
      rw [hnil] at hpre
      simp only [List.nil_append] at hpre
      exact natToStr_ne_nil j (List.prefix_nil.mp hpre)

theorem childEntries_chars_aux (k : Nat) (hk10 : k ≤ 10) (cs : List HuffmanTreeNode)
    (ih : ∀ c ∈ cs, arityLeB k c = true →
      ∀ cur, (∀ ch ∈ cur, ∃ i, i < k ∧ ch = Nat.digitChar i) →
        ∀ p ∈ codeEntries c cur, ∀ ch ∈ p.2, ∃ i, i < k ∧ ch = Nat.digitChar i)
    (hall : arityLeAll k cs = true) :
    ∀ i cur, i + cs.length ≤ k →
      (∀ ch ∈ cur, ∃ i, i < k ∧ ch = Nat.digitChar i) →
      ∀ p ∈ childEntries cs i cur, ∀ ch ∈ p.2, ∃ i, i < k ∧ ch = Nat.digitChar i := by
  induction cs with
  | nil => intro i cur _ _ p hp; simp [childEntries] at hp
  | cons c cs ihl =>
    intro i cur hbound hcur p hp
    simp only [List.length_cons] at hbound
    unfold childEntries at hp
    rcases List.mem_append.mp hp with hl | hr
    · refine ih c (by simp) (arityLeAll_mem hall (by simp)) (cur ++ natToStr i) ?_ p hl
      intro ch hch
      rcases List.mem_append.mp hch with h | h
      · exact hcur ch h
      · rw [natToStr_digit (by omega)] at h
        simp at h
        exact ⟨i, by omega, h⟩
    · refine ihl (fun c h => ih c (by simp [h]))
        (arityLeAll_of_forall fun b hb => arityLeAll_mem hall (by simp [hb]))
        (i + 1) cur (by omega) hcur p hr

theorem codeEntries_chars (k : Nat) (hk1 : 1 ≤ k) (hk10 : k ≤ 10) (n : HuffmanTreeNode) :
    arityLeB k n = true →
      ∀ cur, (∀ ch ∈ cur, ∃ i, i < k ∧ ch = Nat.digitChar i) →
        ∀ p ∈ codeEntries n cur, ∀ ch ∈ p.2, ∃ i, i < k ∧ ch = Nat.digitChar i := by
  induction n using HuffmanTreeNode.rec_children with
  | h d f cs ih =>
    intro hb cur hcur p hp
    unfold codeEntries at hp
    split at hp
    · simp only [List.mem_singleton] at hp
      subst hp
      show ∀ ch ∈ (if cur.isEmpty then ['0'] else cur), ∃ i, i < k ∧ ch = Nat.digitChar i
      split
      · intro ch hch
        simp at hch
        exact ⟨0, by omega, by rw [hch]; rfl⟩
      · exact hcur
    · obtain ⟨hlen, hall⟩ := arityLeB_node hb
      exact childEntries_chars_aux k hk10 cs ih hall 0 cur (by omega) hcur p hp

/-- Every code in the table is made of digit characters below `m`. -/
theorem codeTable_codes_digits (text : List Char) (m : Nat) (h2 : 2 ≤ m) (h10 : m ≤ 10) :
    ∀ p ∈ codeTable text m, ∀ ch ∈ p.2, ∃ i, i < m ∧ ch = Nat.digitChar i := by
  intro p hp
  cases hroot : generateMaryTree (calculateFrequencies text) m with
  | none =>
    unfold codeTable at hp
    rw [hroot] at hp
    simp at hp
  | some root =>
    obtain ⟨heq, _⟩ := codeTable_eq_entries text m h2 root hroot
    rw [heq] at hp
    have harity := generateMaryTreeWith_arity dummyName (calculateFrequencies text) m root hroot
    exact codeEntries_chars m (by omega) h10 root harity [] (by simp) p hp

theorem countP_eq_one_of_nodup_mem {α : Type} [DecidableEq α] {l : List α} {a : α}
    (hnd : l.Nodup) (ha : a ∈ l) : l.countP (fun x => decide (x = a)) = 1 := by
  induction l with
  | nil => simp at ha
  | cons b bs ih =>
    rw [List.nodup_cons] at hnd
    rcases List.mem_cons.mp ha with rfl | ha
    · rw [List.countP_cons_of_pos _ _ (by simp)]
      have : bs.countP (fun x => decide (x = a)) = 0 := by
        rw [List.countP_eq_zero]
        intro x hx
        simp only [decide_eq_true_eq]
        intro hxa
        exact hnd.1 (hxa ▸ hx)
      omega
    · have hba : b ≠ a := fun h => hnd.1 (h ▸ ha)
      rw [List.countP_cons_of_neg _ _ (by simp [hba])]
      exact ih hnd.2 ha

/-- There is exactly one table entry per distinct character of the text. -/
theorem codeTable_count_one (text : List Char) (m : Nat) (h2 : 2 ≤ m)
    (c : Char) (hc : c ∈ text) :
    ((codeTable text m).filter (fun p => decide (p.1 = [c]))).length = 1 := by
  rw [← List.countP_eq_length_filter]
  have h1 : (codeTable text m).countP (fun p => decide (p.1 = [c])) =
      ((codeTable text m).map Prod.fst).countP (fun k => decide (k = [c])) := by
    rw [List.countP_map]
    rfl
  rw [h1, (codeTable_keys_perm text m h2).countP_eq]
  exact countP_eq_one_of_nodup_mem (calcFreq_keys_nodup text)
    ((calcFreq_keys_mem text c).mpr hc)

theorem mapGet_of_key_mem (tbl : List (Str × Str)) (k : Str) (hk : k ∈ tbl.map Prod.fst) :
    ∃ p, tbl.find? (fun p => decide (p.1 = k)) = some p ∧ p.1 = k ∧ p ∈ tbl := by
  have hsome : (tbl.find? (fun p => decide (p.1 = k))).isSome := by
    rw [List.find?_isSome]
    obtain ⟨p, hp, hpk⟩ := List.mem_map.mp hk
    exact ⟨p, hp, by simp [hpk]⟩
  obtain ⟨p, hp⟩ := Option.isSome_iff_exists.mp hsome
  refine ⟨p, hp, ?_, List.mem_of_find?_eq_some hp⟩
  have := List.find?_some hp
  simpa using this

/-- Every character of the text has a (non-empty) code in the table. -/
theorem codeTable_get (text : List Char) (m : Nat) (h2 : 2 ≤ m)
    (c : Char) (hc : c ∈ text) :
    ∃ code, mapGet (codeTable text m) [c] = some code ∧ code ≠ [] := by
  have hk : [c] ∈ (codeTable text m).map Prod.fst :=
    (codeTable_keys_perm text m h2).mem_iff.mpr ((calcFreq_keys_mem text c).mpr hc)
  obtain ⟨p, hfind, hpk, hpmem⟩ := mapGet_of_key_mem (codeTable text m) [c] hk
  refine ⟨p.2, ?_, codeTable_codes_ne_nil text m h2 p hpmem⟩
  unfold mapGet
  rw [hfind]
  rfl

/-- Padding correctness: after adding the computed dummies, the leaf count
is congruent to 1 modulo `M - 1`. -/
theorem requiredPadding_mod (N M : Nat) (hN : 2 ≤ N) (hM : 2 ≤ M) :
    (N + calculateRequiredDummies N M - 1) % (M - 1) = 0 := by
  unfold calculateRequiredDummies
  by_cases h : (N - 1) % (M - 1) = 0
  · simp only [h, if_pos]
    have h1 : N + 0 - 1 = N - 1 := by omega
    simpa [h1] using h
  · rw [if_neg h]
    have hM1 : 0 < M - 1 := by omega
    have hr : (N - 1) % (M - 1) < M - 1 := Nat.mod_lt _ hM1
    have hdm := Nat.div_add_mod (N - 1) (M - 1)
    have h1 : N + (M - 1 - (N - 1) % (M - 1)) - 1 =
        (M - 1) * ((N - 1) / (M - 1)) + (M - 1) := by omega
    rw [h1, Nat.add_mod, Nat.mul_mod_right, Nat.mod_self]
    simp

theorem totalLeaves_mod (N M : Nat) (hN : 2 ≤ N) (hM : 2 ≤ M) :
    (N + calculateRequiredDummies N M) % (M - 1) = 1 % (M - 1) := by
  have h := requiredPadding_mod N M hN hM
  have h1 : N + calculateRequiredDummies N M =
      (N + calculateRequiredDummies N M - 1) + 1 := by omega
  rw [h1, Nat.add_mod, h]
  simp [Nat.mod_mod_of_dvd]

theorem strictArityAll_mem {m : Nat} {cs : List HuffmanTreeNode} {c : HuffmanTreeNode}
    (h : strictArityAll m cs = true) (hc : c ∈ cs) : strictArityB m c = true := by
  induction cs with
  | nil => simp at hc
  | cons b bs ih =>
    unfold strictArityAll at h
    rw [Bool.and_eq_true] at h
    rcases List.mem_cons.mp hc with rfl | hc
    · exact h.1
    · exact ih h.2 hc

theorem strictArityAll_of_forall {m : Nat} {cs : List HuffmanTreeNode}
    (h : ∀ c ∈ cs, strictArityB m c = true) : strictArityAll m cs = true := by
  induction cs with
  | nil => rfl
  | cons b bs ih =>
    unfold strictArityAll
    rw [Bool.and_eq_true]
    exact ⟨h b (by simp), ih (fun c hc => h c (by simp [hc]))⟩

theorem strictArityB_leaf {m : Nat} {d : Str} {f : Nat} (hd : d ≠ internalTag) :
    strictArityB m (HuffmanTreeNode.node d f []) = true := by
  unfold strictArityB strictArityAll
  simp [hd]

theorem singleton_ne_internalTag (c : Char) : [c] ≠ internalTag := by
  intro h
  have := congrArg List.length h
  simp [internalTag] at this

theorem buildLoopF_strict (m : Nat) (hm : 2 ≤ m) :
    ∀ (fuel : Nat) (pq : List HuffmanTreeNode),
      pq.length % (m - 1) = 1 % (m - 1) →
      (∀ x ∈ pq, strictArityB m x = true) →
      ∀ x ∈ buildLoopF m fuel pq, strictArityB m x = true := by
  intro fuel
  induction fuel with
  | zero => intro pq _ hall; exact hall
  | succ fuel ih =>
    intro pq hmod hall
    unfold buildLoopF
    split
    · next h =>
      have hlen : m ≤ pq.length := by
        rcases Nat.eq_or_lt_of_le hm with heq2 | hm3
        · omega
        · have h1 : 1 % (m - 1) = 1 := Nat.mod_eq_of_lt (by omega)
          by_contra hlt
          push_neg at hlt
          rcases Nat.lt_or_ge pq.length (m - 1) with hc | hc
          · have h2 : pq.length % (m - 1) = pq.length := Nat.mod_eq_of_lt hc
            omega
          · have hc2 : pq.length = m - 1 := by omega
            have h2 : pq.length % (m - 1) = 0 := by rw [hc2]; exact Nat.mod_self _
            omega
      have hmin : min m pq.length = m := by omega
      refine ih _ ?_ ?_
      · rw [enqueue_length, List.length_drop, hmin]
        have h1 : pq.length - m + 1 = pq.length - (m - 1) := by omega
        rw [h1]
        rw [← Nat.mod_eq_sub_mod (by omega)]
        exact hmod
      · intro x hx
        rcases mem_of_mem_enqueue hx with hx | rfl
        · exact hall x (List.mem_of_mem_drop hx)
        · unfold strictArityB
          rw [Bool.and_eq_true]
          constructor
          · rw [if_pos rfl]
            simp only [decide_eq_true_eq, List.length_take]
            omega
          · exact strictArityAll_of_forall fun c hc => hall c (List.mem_of_mem_take hc)
    · exact hall

theorem buildLoop_strict (m : Nat) (hm : 2 ≤ m) (pq : List HuffmanTreeNode)
    (hmod : pq.length % (m - 1) = 1 % (m - 1))
    (hall : ∀ x ∈ pq, strictArityB m x = true) :
    ∀ x ∈ buildLoop m pq, strictArityB m x = true :=
  buildLoopF_strict m hm pq.length pq hmod hall

theorem generateMaryTreeCore_strict (name : Nat → Str) (m : Nat)
    (pq : List HuffmanTreeNode) (hm : 2 ≤ m) (hN : 2 ≤ pq.length)
    (hall : ∀ x ∈ pq, strictArityB m x = true)
    (hdname : ∀ i, name i ≠ internalTag) :
    ∀ root, generateMaryTreeCore name m pq = some root → strictArityB m root = true := by
  intro root hroot
  unfold generateMaryTreeCore at hroot
  split at hroot
  · simp at hroot
  · next n =>
    have hn : n = root := by simpa using hroot
    subst hn
    exact hall n (by simp)
  · split at hroot
    · simp at hroot
    · next r rest heq =>
      have hr : r = root := by simpa using hroot
      subst hr
      have hdum : ∀ n ∈ addDummies name pq (calculateRequiredDummies pq.length m),
          strictArityB m n = true := by
        unfold addDummies
        exact foldl_enqueue_forall _ _ _
          (fun i _ => strictArityB_leaf (hdname i)) _ hall
      have hmod : (addDummies name pq (calculateRequiredDummies pq.length m)).length % (m - 1) =
          1 % (m - 1) := by
        rw [addDummies_length]
        exact totalLeaves_mod pq.length m hN hm
      have hfin := buildLoop_strict m hm _ hmod hdum
      rw [heq] at hfin
      exact hfin r (by simp)

/-- When the text has at least two distinct symbols, every node of the
built tree that is tagged `"internal"` has exactly `m` children (and every
other node has none). -/
theorem generateMaryTree_strict (text : List Char) (m : Nat) (hm : 2 ≤ m)
    (hN : 2 ≤ (calculateFrequencies text).length) :
    ∀ root, generateMaryTree (calculateFrequencies text) m = some root →
      strictArityB m root = true := by
  intro root hroot
  unfold generateMaryTree generateMaryTreeWith at hroot
  refine generateMaryTreeCore_strict dummyName m _ hm ?_ ?_ ?_ root hroot
  · rw [foldl_enqueue_length (fun p : Str × Nat => HuffmanTreeNode.node p.1 p.2 [])
      (calculateFrequencies text) []]
    simpa using hN
  · refine foldl_enqueue_forall _ _ _ ?_ [] (by simp)
    intro p hp
    obtain ⟨c, _, hc⟩ := calcFreq_keys_singleton text p.1 (List.mem_map_of_mem Prod.fst hp)
    exact strictArityB_leaf (by rw [hc]; exact singleton_ne_internalTag c)
  · intro i h
    have hd : ('d' : Char) = 'i' := by
      have := congrArg List.head? h
      simpa [dummyName, dummyPrefix, internalTag] using this
    exact absurd hd (by decide)

mutual
/-- Exactly the property claimed of the built tree: every node tagged
`"internal"` has exactly `m` children. -/
def internalArityB (m : Nat) : HuffmanTreeNode → Bool
  | .node d _ cs =>
    (if d = internalTag then decide (cs.length = m) else true) && internalArityAll m cs

def internalArityAll (m : Nat) : List HuffmanTreeNode → Bool
  | [] => true
  | c :: cs => internalArityB m c && internalArityAll m cs
end

theorem internalArityAll_of_forall {m : Nat} {cs : List HuffmanTreeNode}
    (h : ∀ c ∈ cs, internalArityB m c = true) : internalArityAll m cs = true := by
  induction cs with
  | nil => rfl
  | cons b bs ih =>
    unfold internalArityAll
    rw [Bool.and_eq_true]
    exact ⟨h b (by simp), ih (fun c hc => h c (by simp [hc]))⟩

theorem internalArityB_of_strict {m : Nat} (n : HuffmanTreeNode)
    (h : strictArityB m n = true) : internalArityB m n = true := by
  induction n using HuffmanTreeNode.rec_children with
  | h d f cs ih =>
    unfold strictArityB at h
    rw [Bool.and_eq_true] at h
    unfold internalArityB
    rw [Bool.and_eq_true]
    constructor
    · split
      · next hd => rw [if_pos hd] at h; exact h.1
      · rfl
    · exact internalArityAll_of_forall fun c hc =>
        ih c hc (strictArityAll_mem h.2 hc)

theorem codeTable_keys_nodup (text : List Char) (m : Nat) (h2 : 2 ≤ m) :
    ((codeTable text m).map Prod.fst).Nodup :=
  (codeTable_keys_perm text m h2).nodup_iff.mpr (calcFreq_keys_nodup text)

theorem mapGet_mem {tbl : List (Str × Str)} {k v : Str} (h : mapGet tbl k = some v) :
    (k, v) ∈ tbl := by
  unfold mapGet at h
  rcases hfind : tbl.find? (fun p => decide (p.1 = k)) with _ | p
  · rw [hfind] at h; simp at h
  · rw [hfind] at h
    have hv : p.2 = v := by simpa using h
    have hk := List.find?_some hfind
    simp only [decide_eq_true_eq] at hk
    have hmem := List.mem_of_find?_eq_some hfind
    have hp : (k, v) = p := by rw [← hk, ← hv]
    rw [hp]
    exact hmem

/-- The value looked up for a character, defaulting to the empty string. -/
def lookupCode (tbl : List (Str × Str)) (c : Char) : Str := (mapGet tbl [c]).getD []

theorem concatCodes_eq (tbl : List (Str × Str)) (text : List Char)
    (h : ∀ c ∈ text, (mapGet tbl [c]).isSome ∧ lookupCode tbl c ≠ []) :
    concatCodes tbl text = (text.map (lookupCode tbl)).flatten := by
  unfold concatCodes
  suffices haux : ∀ acc, text.foldl
      (fun acc c =>
        match mapGet tbl [c] with
        | none => acc
        | some code => if code.isEmpty then acc else acc ++ code)
      acc = acc ++ (text.map (lookupCode tbl)).flatten by
    exact (haux []).trans (by simp)
  induction text with
  | nil => intro acc; simp
  | cons c t ih =>
    intro acc
    obtain ⟨hsome, hne⟩ := h c (by simp)
    obtain ⟨code, hcode⟩ := Option.isSome_iff_exists.mp hsome
    have hlook : lookupCode tbl c = code := by unfold lookupCode; rw [hcode]; rfl
    have hne' : code.isEmpty = false := by
      rw [hlook] at hne
      cases code
      · exact absurd rfl hne
      · rfl
    simp only [List.foldl_cons, hcode, hne', Bool.false_eq_true, if_false]
    rw [ih (fun c hc => h c (by simp [hc])) (acc ++ code)]
    simp [hlook]

theorem find?_unique {α : Type} {p : α → Bool} {l : List α} {a : α} (ha : a ∈ l)
    (hpa : p a = true) (huniq : ∀ b ∈ l, p b = true → b = a) : l.find? p = some a := by
  induction l with
  | nil => simp at ha
  | cons x xs ih =>
    by_cases hx : p x = true
    · rw [List.find?_cons_of_pos _ hx]
      rw [huniq x (by simp) hx]
    · rw [List.find?_cons_of_neg _ hx]
      rcases List.mem_cons.mp ha with rfl | ha
      · exact absurd hpa hx
      · exact ih ha (fun b hb hpb => huniq b (by simp [hb]) hpb)

theorem noPrefixPair_symm : ∀ {p q : Str × Str}, NoPrefixPair p q → NoPrefixPair q p :=
  fun h => ⟨h.2, h.1⟩

theorem findCode_of_mem (tbl : List (Str × Str)) (hPF : PrefixFreeEntries tbl)
    (e : Str × Str) (he : e ∈ tbl) (rest : Str) :
    findCode tbl (e.2 ++ rest) = some e := by
  unfold findCode
  refine find?_unique he ?_ ?_
  · exact List.isPrefixOf_iff_prefix.mpr (List.prefix_append e.2 rest)
  · intro b hb hpb
    by_contra hne
    have hR : NoPrefixPair b e := by
      have hsymm : Symmetric NoPrefixPair := fun _ _ h => noPrefixPair_symm h
      exact List.Pairwise.forall hsymm hPF hb he hne
    have hbpre : b.2 <+: e.2 ++ rest := List.isPrefixOf_iff_prefix.mp hpb
    have hepre : e.2 <+: e.2 ++ rest := List.prefix_append e.2 rest
    rcases List.prefix_or_prefix_of_prefix hbpre hepre with h | h
    · exact hR.1 h
    · exact hR.2 h

theorem decodeAux_nil (tbl : List (Str × Str)) (fuel : Nat) :
    decodeAux tbl fuel [] = some [] := by
  cases fuel <;> rfl

/-- Decoding the concatenation of table codes recovers the symbols, in
order, provided the table is prefix-free and the codes are non-empty. -/
theorem decode_concat (tbl : List (Str × Str)) (hPF : PrefixFreeEntries tbl)
    (entries : List (Str × Str)) (hent : ∀ e ∈ entries, e ∈ tbl)
    (hne : ∀ e ∈ entries, e.2 ≠ []) :
    ∀ fuel, ((entries.map Prod.snd).flatten).length ≤ fuel →
      decodeAux tbl fuel ((entries.map Prod.snd).flatten) = some (entries.map Prod.fst) := by
  induction entries with
  | nil => intro fuel _; simpa using decodeAux_nil tbl fuel
  | cons e es ih =>
    intro fuel hfuel
    simp only [List.map_cons, List.flatten_cons]
    have hene : e.2 ≠ [] := hne e (by simp)
    obtain ⟨d, ds, hds⟩ : ∃ d ds, e.2 = d :: ds := by
      cases he2 : e.2
      · exact absurd he2 hene
      · exact ⟨_, _, rfl⟩
    have hfind : findCode tbl (e.2 ++ (es.map Prod.snd).flatten) = some e :=
      findCode_of_mem tbl hPF e (hent e (by simp)) _
    obtain ⟨f, hf⟩ : ∃ f, fuel = f + 1 := by
      simp only [List.map_cons, List.flatten_cons, List.length_append, hds,
        List.length_cons] at hfuel
      exact ⟨fuel - 1, by omega⟩
    subst hf
    rw [hds]
    simp only [List.cons_append]
    rw [show decodeAux tbl (f + 1) (d :: (ds ++ (es.map Prod.snd).flatten)) =
      match findCode tbl (d :: (ds ++ (es.map Prod.snd).flatten)) with
      | none => none
      | some p =>
        if p.2.isEmpty then none
        else
          match decodeAux tbl f ((d :: (ds ++ (es.map Prod.snd).flatten)).drop p.2.length) with
          | none => none
          | some syms => some (p.1 :: syms) from rfl]
    have hfind' : findCode tbl (d :: (ds ++ (es.map Prod.snd).flatten)) = some e := by
      rw [← hfind, hds]
      simp
    rw [hfind']
    show (if List.isEmpty e.2 = true then none
      else
        match decodeAux tbl f ((d :: (ds ++ (es.map Prod.snd).flatten)).drop e.2.length) with
        | none => none
        | some syms => some (e.1 :: syms)) = some (e.1 :: es.map Prod.fst)
    have hempty : e.2.isEmpty = false := by
      rw [hds]; rfl
    rw [hempty]
    simp only [Bool.false_eq_true, if_false]
    have hdrop : (d :: (ds ++ (es.map Prod.snd).flatten)).drop e.2.length =
        (es.map Prod.snd).flatten := by
      have hcons : d :: (ds ++ (es.map Prod.snd).flatten) =
          e.2 ++ (es.map Prod.snd).flatten := by
        rw [hds]; simp
      rw [hcons, List.drop_left]
    have hih := ih (fun x hx => hent x (by simp [hx])) (fun x hx => hne x (by simp [hx])) f (by
      simp only [List.map_cons, List.flatten_cons, List.length_append, hds,
        List.length_cons] at hfuel
      omega)
    rw [hdrop, hih]

/-- Round trip: decoding the produced payload with the produced table
recovers the text, symbol for symbol, in order. -/
theorem decode_encode (text : List Char) (m : Nat) (h2 : 2 ≤ m) (h10 : m ≤ 10) :
    decode (codeTable text m) (encodedPayload text m) = some (text.map (fun c => [c])) := by
  by_cases hemp : text.isEmpty = true
  · have htext : text = [] := by
      cases text
      · rfl
      · simp at hemp
    subst htext
    unfold decode encodedPayload
    simp [decodeAux_nil]
  · have hlook : ∀ c ∈ text, mapGet (codeTable text m) [c] =
        some (lookupCode (codeTable text m) c) ∧ lookupCode (codeTable text m) c ≠ [] := by
      intro c hc
      obtain ⟨code, hcode, hne⟩ := codeTable_get text m h2 c hc
      have : lookupCode (codeTable text m) c = code := by
        unfold lookupCode
        rw [hcode]
        rfl
      rw [this, hcode]
      exact ⟨rfl, hne⟩
    have hpayload : encodedPayload text m =
        ((text.map (fun c => ([c], lookupCode (codeTable text m) c))).map Prod.snd).flatten := by
      unfold encodedPayload
      rw [if_neg hemp]
      rw [concatCodes_eq (codeTable text m) text
        (fun c hc => ⟨by rw [(hlook c hc).1]; rfl, (hlook c hc).2⟩)]
      rw [List.map_map]
      rfl
    rw [hpayload]
    unfold decode
    rw [decode_concat (codeTable text m) (codeTable_prefixFree text m h2 h10)
      (text.map (fun c => ([c], lookupCode (codeTable text m) c)))
      ?hmem ?hne _ (le_refl _)]
    · rw [List.map_map]
      rfl
    case hmem =>
      intro e he
      obtain ⟨c, hc, hce⟩ := List.mem_map.mp he
      rw [← hce]
      exact mapGet_mem (hlook c hc).1
    case hne =>
      intro e he
      obtain ⟨c, hc, hce⟩ := List.mem_map.mp he
      rw [← hce]
      exact (hlook c hc).2

/-- Claim C1: for every input text and every branching factor M with
2 ≤ M ≤ 5, the code table produced by encoding contains exactly one entry
for each distinct symbol occurring in the input, and each such entry's
code is a non-empty digit string (each character is a digit below M). -/
theorem claim_C1 (text : List Char) (m : Nat) (h2 : 2 ≤ m) (h5 : m ≤ 5)
    (c : Char) (hc : c ∈ text) :
    ((codeTable text m).filter (fun p => decide (p.1 = [c]))).length = 1 ∧
    ∀ p ∈ codeTable text m, p.1 = [c] →
      p.2 ≠ [] ∧ ∀ ch ∈ p.2, ∃ i, i < m ∧ ch = Nat.digitChar i := by
  refine ⟨codeTable_count_one text m h2 c hc, ?_⟩
  intro p hp _
  exact ⟨codeTable_codes_ne_nil text m h2 p hp,
    codeTable_codes_digits text m h2 (by omega) p hp⟩

theorem claim_C1_witness :
    2 ≤ 3 ∧ 3 ≤ 5 ∧ 'a' ∈ ['a', 'b'] ∧
    (((codeTable ['a', 'b'] 3).filter (fun p => decide (p.1 = ['a']))).length = 1 ∧
      ∀ p ∈ codeTable ['a', 'b'] 3, p.1 = ['a'] →
        p.2 ≠ [] ∧ ∀ ch ∈ p.2, ∃ i, i < 3 ∧ ch = Nat.digitChar i) :=
  ⟨by decide, by decide, by decide,
    claim_C1 ['a', 'b'] 3 (by decide) (by decide) 'a' (by decide)⟩

/-- Claim C2 counterexample: the claim quantifies over every M ≥ 2, but with
eleven distinct symbols and M = 11 the eleventh child index is rendered by
`toString` as the two-character string "10", so the code "1" (symbol b) is a
prefix of the code "10" (symbol k): the table is not prefix-free. -/
theorem claim_C2_counterexample :
    (['a', 'b', 'c', 'd', 'e', 'f', 'g', 'h', 'i', 'j', 'k'] : List Char) ≠ [] ∧ 2 ≤ 11 ∧
    ¬ PrefixFreeEntries (codeTable ['a', 'b', 'c', 'd', 'e', 'f', 'g', 'h', 'i', 'j', 'k'] 11) := by
  refine ⟨by decide, by decide, ?_⟩
  intro hPF
  have htbl : codeTable ['a', 'b', 'c', 'd', 'e', 'f', 'g', 'h', 'i', 'j', 'k'] 11 =
      [(['a'], ['0']), (['b'], ['1']), (['c'], ['2']), (['d'], ['3']), (['e'], ['4']),
       (['f'], ['5']), (['g'], ['6']), (['h'], ['7']), (['i'], ['8']), (['j'], ['9']),
       (['k'], ['1', '0'])] := by decide
  rw [htbl] at hPF
  have hmem1 : ((['b'], ['1']) : Str × Str) ∈
      [((['a'], ['0']) : Str × Str), (['b'], ['1']), (['c'], ['2']), (['d'], ['3']), (['e'], ['4']),
       (['f'], ['5']), (['g'], ['6']), (['h'], ['7']), (['i'], ['8']), (['j'], ['9']),
       (['k'], ['1', '0'])] := by simp
  have hmem2 : ((['k'], ['1', '0']) : Str × Str) ∈
      [((['a'], ['0']) : Str × Str), (['b'], ['1']), (['c'], ['2']), (['d'], ['3']), (['e'], ['4']),
       (['f'], ['5']), (['g'], ['6']), (['h'], ['7']), (['i'], ['8']), (['j'], ['9']),
       (['k'], ['1', '0'])] := by simp
  have hR := List.Pairwise.forall (fun _ _ h => noPrefixPair_symm h) hPF hmem1 hmem2 (by decide)
  exact hR.1 (by decide)

/-- Claim C2 (amended: 2 ≤ M ≤ 10, the exact range in which every child
index is a single digit character): for every non-empty input text the set
of code strings in the resulting code table is prefix-free — no code of one
symbol is a prefix of the code of a different symbol. -/
theorem claim_C2 (text : List Char) (m : Nat) (hne : text ≠ []) (h2 : 2 ≤ m) (h10 : m ≤ 10) :
    ∀ p ∈ codeTable text m, ∀ q ∈ codeTable text m, p.1 ≠ q.1 → ¬ (p.2 <+: q.2) := by
  intro p hp q hq hpq
  have hPF := codeTable_prefixFree text m h2 h10
  have hne' : p ≠ q := fun h => hpq (by rw [h])
  exact (List.Pairwise.forall (fun _ _ h => noPrefixPair_symm h) hPF hp hq hne').1

theorem claim_C2_witness :
    (['a', 'b'] : List Char) ≠ [] ∧ 2 ≤ 3 ∧ 3 ≤ 10 ∧
    (∀ p ∈ codeTable ['a', 'b'] 3, ∀ q ∈ codeTable ['a', 'b'] 3,
      p.1 ≠ q.1 → ¬ (p.2 <+: q.2)) :=
  ⟨by decide, by decide, by decide, claim_C2 ['a', 'b'] 3 (by decide) (by decide) (by decide)⟩

/-- Claim C3: for every N ≥ 2 and M ≥ 2 the padding count computed by
`calculateRequiredDummies` satisfies `(N + padding - 1) mod (M - 1) = 0`. -/
theorem claim_C3 (N M : Nat) (hN : 2 ≤ N) (hM : 2 ≤ M) :
    (N + calculateRequiredDummies N M - 1) % (M - 1) = 0 :=
  requiredPadding_mod N M hN hM

theorem claim_C3_witness :
    2 ≤ 4 ∧ 2 ≤ 3 ∧ (4 + calculateRequiredDummies 4 3 - 1) % (3 - 1) = 0 :=
  ⟨by decide, by decide, claim_C3 4 3 (by decide) (by decide)⟩

/-- Claim C4, evaluated at the failing input: in the src/unnamed/part_000
variant the dummies are named `z0`, `z1`, … but `generateCodes` only filters
names starting with `"dummy"`, so for the input "ab" with M = 3 the dummy
leaf `z0` (weight 0) receives the code table entry `z0 → "0"`, contradicting
the claim that no dummy leaf contributes an entry. -/
theorem claim_C4 :
    codeTableAlt ['a', 'b'] 3 = [(['z', '0'], ['0']), (['a'], ['1']), (['b'], ['2'])] ∧
    mapGet (codeTableAlt ['a', 'b'] 3) ['z', '0'] = some ['0'] := by
  exact ⟨by decide, by decide⟩

/-- Claim C5: the code table, payload and tree are deterministic functions
of the input text and M — two runs on equal inputs give identical results.
In this embedding the whole pipeline is a pure function of `(text, m)`
(the source's only tie-breaks are the stable `Array.prototype.sort` with a
fixed `(freq, localeCompare)` comparator), so determinism is structural. -/
theorem claim_C5 (t₁ t₂ : List Char) (m₁ m₂ : Nat) (ht : t₁ = t₂) (hm : m₁ = m₂) :
    codeTable t₁ m₁ = codeTable t₂ m₂ ∧
    encodedPayload t₁ m₁ = encodedPayload t₂ m₂ ∧
    generateMaryTree (calculateFrequencies t₁) m₁ =
      generateMaryTree (calculateFrequencies t₂) m₂ := by
  subst ht
  subst hm
  exact ⟨rfl, rfl, rfl⟩

theorem claim_C5_witness :
    (['a', 'b'] : List Char) = ['a', 'b'] ∧ (3 : Nat) = 3 ∧
    (codeTable ['a', 'b'] 3 = codeTable ['a', 'b'] 3 ∧
      encodedPayload ['a', 'b'] 3 = encodedPayload ['a', 'b'] 3 ∧
      generateMaryTree (calculateFrequencies ['a', 'b']) 3 =
        generateMaryTree (calculateFrequencies ['a', 'b']) 3) :=
  ⟨rfl, rfl, claim_C5 ['a', 'b'] ['a', 'b'] 3 3 rfl rfl⟩

/-- Claim C6: for every valid (input, M) — the recognized range is
2 ≤ M ≤ 5 — decoding the encoded payload with the produced code table
reproduces the original input exactly, symbol for symbol and in order. -/
theorem claim_C6 (text : List Char) (m : Nat) (h2 : 2 ≤ m) (h5 : m ≤ 5) :
    decode (codeTable text m) (encodedPayload text m) = some (text.map (fun c => [c])) :=
  decode_encode text m h2 (by omega)

theorem claim_C6_witness :
    2 ≤ 3 ∧ 3 ≤ 5 ∧
    decode (codeTable ['a', 'b'] 3) (encodedPayload ['a', 'b'] 3) =
      some ((['a', 'b'] : List Char).map (fun c => [c])) :=
  ⟨by decide, by decide, claim_C6 ['a', 'b'] 3 (by decide) (by decide)⟩

/-- Claim C7: for the input "aaaa" with M = 3 the encoder produces the code
table {a → "0"}, the payload "0000", and the compression ratio
(32 − 4)/32 × 100 = 87.50. -/
theorem claim_C7 :
    codeTable ['a', 'a', 'a', 'a'] 3 = [(['a'], ['0'])] ∧
    encodedPayload ['a', 'a', 'a', 'a'] 3 = ['0', '0', '0', '0'] ∧
    compressionRatio ['a', 'a', 'a', 'a'] 3 = ((32 - 4 : ℚ) / 32) * 100 := by
  refine ⟨by decide, by decide, ?_⟩
  have hp : encodedPayload ['a', 'a', 'a', 'a'] 3 = ['0', '0', '0', '0'] := by decide
  unfold compressionRatio
  rw [hp]
  norm_num

/-- Claim C8: for every input with at least two distinct symbols and every
M ≥ 2, the built tree exists and every internal node has exactly M
children (so in particular the claimed root exception is never needed). -/
theorem claim_C8 (text : List Char) (m : Nat) (h2 : 2 ≤ m)
    (hd : 2 ≤ (calculateFrequencies text).length) :
    ∃ root, generateMaryTree (calculateFrequencies text) m = some root ∧
      internalArityB m root = true := by
  cases hroot : generateMaryTree (calculateFrequencies text) m with
  | none =>
    refine absurd hroot (generateMaryTree_ne_none _ m ?_)
    intro h
    rw [h] at hd
    simp at hd
  | some root =>
    exact ⟨root, rfl,
      internalArityB_of_strict root (generateMaryTree_strict text m h2 hd root hroot)⟩

theorem claim_C8_witness :
    2 ≤ 3 ∧ 2 ≤ (calculateFrequencies ['a', 'b', 'c', 'd']).length ∧
    (∃ root, generateMaryTree (calculateFrequencies ['a', 'b', 'c', 'd']) 3 = some root ∧
      internalArityB 3 root = true) :=
  ⟨by decide, by decide, claim_C8 ['a', 'b', 'c', 'd'] 3 (by decide) (by decide)⟩

/-- Claim C9 counterexample: the encode loop's `if (code)` guard silently
skips a symbol with no table entry instead of raising a fatal error — with
a table holding only `a`, concatenating the codes of "ab" produces "0" and
leaves no trace of `b`, the same result as encoding "a" alone. -/
theorem claim_C9_counterexample :
    mapGet [((['a'] : Str), (['0'] : Str))] ['b'] = none ∧
    concatCodes [(['a'], ['0'])] ['a', 'b'] = ['0'] ∧
    concatCodes [(['a'], ['0'])] ['a', 'b'] = concatCodes [(['a'], ['0'])] ['a'] := by
  exact ⟨by decide, by decide, by decide⟩

/-- Claim C9 (amended): a symbol with no table entry is silently skipped by
the `if (code)` guard rather than treated as a fatal error, but that branch
is unreachable: for every input text and M ≥ 2, every symbol of the input
has a non-empty entry in the code table. -/
theorem claim_C9 (text : List Char) (m : Nat) (h2 : 2 ≤ m) (c : Char) (hc : c ∈ text) :
    ∃ code, mapGet (codeTable text m) [c] = some code ∧ code ≠ [] :=
  codeTable_get text m h2 c hc

theorem claim_C9_witness :
    2 ≤ 3 ∧ 'a' ∈ ['a', 'b'] ∧
    (∃ code, mapGet (codeTable ['a', 'b'] 3) ['a'] = some code ∧ code ≠ []) :=
  ⟨by decide, by decide, claim_C9 ['a', 'b'] 3 (by decide) 'a' (by decide)⟩

/-- Claim C10 counterexample: `encode` returns `""` for empty input before
reaching any state setter, so the displayed code table and ratio keep their
previous values; after encoding "ab" with M = 3 and then encoding the empty
text, the table is not empty and the ratio is not 0, contradicting the
claimed empty-table/zero-ratio terminal state. -/
theorem claim_C10_counterexample :
    (encodeUpdate [] 3 (encodeUpdate ['a', 'b'] 3 initialState)).encodedText = [] ∧
    (encodeUpdate [] 3 (encodeUpdate ['a', 'b'] 3 initialState)).huffmanCodes ≠ [] ∧
    (encodeUpdate [] 3 (encodeUpdate ['a', 'b'] 3 initialState)).compressionRatio ≠ 0 := by
  refine ⟨by decide, by decide, ?_⟩
  have h1 : (encodeUpdate [] 3 (encodeUpdate ['a', 'b'] 3 initialState)).compressionRatio =
      compressionRatio ['a', 'b'] 3 := rfl
  rw [h1]
  have hp : encodedPayload ['a', 'b'] 3 = ['1', '2'] := by decide
  unfold compressionRatio
  rw [hp]
  norm_num

/-- Claim C10 (amended): encoding the empty input returns an empty payload
and performs no state update — code table, frequencies and ratio keep their
previous values (so they are {} , {} and 0 only in the initial state); this
is a defined early return, not an error. -/
theorem claim_C10 (m : Nat) (s : AppState) :
    encodeUpdate [] m s = { s with encodedText := [] } ∧
    (encodeUpdate [] m initialState).encodedText = [] ∧
    (encodeUpdate [] m initialState).huffmanCodes = [] ∧
    (encodeUpdate [] m initialState).compressionRatio = 0 ∧
    (encodeUpdate [] m initialState).frequencies = [] :=
  ⟨rfl, rfl, rfl, rfl, rfl⟩
